import Mathlib

/-!
Verification of the `AgentPersistence` session/turn persistence layer
(`llama_stack/providers/inline/agents/meta_reference/persistence.py`).

Strings (Python `str`) are embedded as lists of Unicode code points
(`List Nat`), compared lexicographically — this is exactly Python's
string order on the characters appearing in keys.  Timestamps
(`datetime`) are embedded as `Nat`; `datetime.min` is the least element,
embedded as `0`.

The key-value backend (`KVStore`) is not part of the source tree; it is
modelled from the spec (§6): an ordered string-keyed store with
`set`/`get` and a half-open `range(start, end)` scan returning the
values of all keys in `[start, end)` in key order.

Serialization (`model_dump_json` / `json.loads` + pydantic validation)
is likewise modelled from the spec (§6): each record kind round-trips
losslessly, records of one kind do not deserialize as another kind, and
arbitrary non-record bytes (`rawVal`) deserialize as nothing.  A
serialized record is never the empty string.
-/

namespace AgentPersist

/-- A Python string, as its list of Unicode code points. -/
abbrev Str := List Nat

/-- Code points of a Lean string literal (used to embed the f-string literals). -/
def strOf (s : String) : Str := s.data.map Char.toNat

/-- `completed_at` values: `datetime` embedded as `Nat`, `datetime.min ↦ 0`. -/
abbrev Time := Nat

/-- `AgentSessionInfo` (pydantic model in the source): session metadata record. -/
structure AgentSessionInfo where
  session_id : Str
  session_name : Str
  vector_db_id : Option Str
  started_at : Time
deriving DecidableEq

/-- Modelled from the spec: a `Turn` is opaque beyond a `turn_id` (unique within
a session) and an optional `completed_at` used for ordering; `payload` stands
for the rest of the record. -/
structure Turn where
  turn_id : Str
  completed_at : Option Time
  payload : Str
deriving DecidableEq

/-- Modelled from the spec: a `ToolExecutionStep` is an opaque record. -/
structure ToolExecutionStep where
  payload : Str
deriving DecidableEq

/-- Modelled from the spec: a stored value is the lossless serialization of one
of the three record kinds, or arbitrary other content (`rawVal`), which fails
to deserialize as any record. -/
inductive StoredVal where
  | sessionVal : AgentSessionInfo → StoredVal
  | turnVal : Turn → StoredVal
  | stepVal : ToolExecutionStep → StoredVal
  | rawVal : Str → StoredVal
deriving DecidableEq

/-- Errors raised by the layer: `ValueError(f"Session {session_id} not found")`
and json/pydantic deserialization failures. -/
inductive Err where
  | notFound : Str → Err
  | parseFailure : Err
deriving DecidableEq

/-- Python falsiness of an `Optional[str]` value that is present: only the
empty string is falsy.  Serialized records are non-empty, so never falsy. -/
def StoredVal.falsy : StoredVal → Bool
  | .rawVal [] => true
  | _ => false

/-- `AgentSessionInfo(**json.loads(v))`: succeeds exactly on a serialized session record. -/
def parseSession : StoredVal → Option AgentSessionInfo
  | .sessionVal i => some i
  | _ => none

/-- `Turn(**json.loads(v))`: succeeds exactly on a serialized turn record. -/
def parseTurn : StoredVal → Option Turn
  | .turnVal t => some t
  | _ => none

/-- `ToolExecutionStep(**json.loads(v))`: succeeds exactly on a serialized step record. -/
def parseStep : StoredVal → Option ToolExecutionStep
  | .stepVal s => some s
  | _ => none

/-- Modelled from the spec: the key-value backend state, a string-keyed map
(represented as an association list; `sRange` orders by key). -/
abbrev Store := List (Str × StoredVal)

/-- Backend `get(key)`. -/
def sGet (k : Str) : Store → Option StoredVal
  | [] => none
  | (k', v) :: σ => if k = k' then some v else sGet k σ

/-- Backend `set(key, value)`: last write wins for the key. -/
def sSet (k : Str) (v : StoredVal) (σ : Store) : Store :=
  (k, v) :: σ.filter (fun kv => decide (kv.1 ≠ k))

/-- Key order on store entries. -/
def entryLe (x y : Str × StoredVal) : Prop := x.1 ≤ y.1

instance : DecidableRel entryLe := fun x y => (inferInstance : Decidable (x.1 ≤ y.1))

instance : IsTotal (Str × StoredVal) entryLe := ⟨fun x y => le_total x.1 y.1⟩

instance : IsTrans (Str × StoredVal) entryLe := ⟨fun _ _ _ h h' => le_trans h h'⟩

/-- Backend `range(start_key, end_key)` (modelled from the spec §6): the values
of all keys in the half-open interval `[start, end)`, ordered by key. -/
def sRange (s e : Str) (σ : Store) : List StoredVal :=
  (List.insertionSort entryLe
    (σ.filter (fun kv => decide (s ≤ kv.1 ∧ kv.1 < e)))).map Prod.snd

/-- `f"session:{agent_id}:{session_id}"`. -/
def sessionKey (agentId sessionId : Str) : Str :=
  strOf "session:" ++ agentId ++ [58] ++ sessionId

/-- `f"session:{agent_id}:{session_id}:{turn_id}"`. -/
def turnKey (agentId sessionId turnId : Str) : Str :=
  strOf "session:" ++ agentId ++ [58] ++ sessionId ++ [58] ++ turnId

/-- `f"in_progress_tool_call_step:{agent_id}:{session_id}:{turn_id}"`. -/
def stepKey (agentId sessionId turnId : Str) : Str :=
  strOf "in_progress_tool_call_step:" ++ agentId ++ [58] ++ sessionId ++ [58] ++ turnId

/-- Scan start of `get_session_turns`: `f"session:{agent_id}:{session_id}:"`. -/
def turnRangeStart (agentId sessionId : Str) : Str :=
  strOf "session:" ++ agentId ++ [58] ++ sessionId ++ [58]

/-- Scan end of `get_session_turns`:
`f"session:{agent_id}:{session_id}:\xff\xff\xff\xff"` (`'\xff'` is code point 255). -/
def turnRangeEnd (agentId sessionId : Str) : Str :=
  turnRangeStart agentId sessionId ++ [255, 255, 255, 255]

/-- `create_session`: `uuid.uuid4()` and `datetime.now()` are modelled as the
parameters `sessionId` and `now`.  Builds the record with `vector_db_id`
defaulted to absent, writes it under the session key, returns the id. -/
def create_session (agentId name sessionId : Str) (now : Time) (σ : Store) :
    Str × Store :=
  let session_info : AgentSessionInfo :=
    { session_id := sessionId, session_name := name,
      vector_db_id := none, started_at := now }
  (sessionId, sSet (sessionKey agentId sessionId) (.sessionVal session_info) σ)

/-- `get_session_info`: `if not value: return None` (absent or empty string),
otherwise deserialize; a deserialization failure propagates. -/
def get_session_info (agentId sessionId : Str) (σ : Store) :
    Except Err (Option AgentSessionInfo) × Store :=
  match sGet (sessionKey agentId sessionId) σ with
  | none => (.ok none, σ)
  | some v =>
    if v.falsy then (.ok none, σ)
    else
      match parseSession v with
      | some info => (.ok (some info), σ)
      | none => (.error .parseFailure, σ)

/-- `add_vector_db_to_session`: read-modify-write through `get_session_info`;
raises `ValueError` (not-found) when the session is absent. -/
def add_vector_db_to_session (agentId sessionId vectorDbId : Str) (σ : Store) :
    Except Err Unit × Store :=
  match get_session_info agentId sessionId σ with
  | (.error e, σ') => (.error e, σ')
  | (.ok none, σ') => (.error (.notFound sessionId), σ')
  | (.ok (some session_info), σ') =>
    let session_info' := { session_info with vector_db_id := some vectorDbId }
    (.ok (), sSet (sessionKey agentId sessionId) (.sessionVal session_info') σ')

/-- `add_turn_to_session`: writes the turn under its turn key. -/
def add_turn_to_session (agentId sessionId : Str) (turn : Turn) (σ : Store) :
    Unit × Store :=
  ((), sSet (turnKey agentId sessionId turn.turn_id) (.turnVal turn) σ)

/-- Sort key of `turns.sort(key=lambda x: (x.completed_at or datetime.min))`:
an absent `completed_at` is replaced by `datetime.min` (embedded as `0`;
`datetime` objects are always truthy, so `or` only replaces `None`). -/
def sortKey (t : Turn) : Time := t.completed_at.getD 0

/-- The comparison `list.sort` sorts by (non-strict, for stability). -/
def turnLe (x y : Turn) : Prop := sortKey x ≤ sortKey y

instance : DecidableRel turnLe := fun x y => (inferInstance : Decidable (sortKey x ≤ sortKey y))

instance : IsTotal Turn turnLe := ⟨fun x y => Nat.le_total (sortKey x) (sortKey y)⟩

instance : IsTrans Turn turnLe := ⟨fun _ _ _ h h' => Nat.le_trans h h'⟩

/-- Python's `list.sort` is a stable sort; a stable sort by a total preorder is
unique, so it is embedded as insertion sort by `turnLe`. -/
def sortTurns (l : List Turn) : List Turn := List.insertionSort turnLe l

/-- `get_session_turns`: range scan, per-record deserialization with
skip-on-failure (`except Exception: continue`), then the stable sort. -/
def get_session_turns (agentId sessionId : Str) (σ : Store) :
    List Turn × Store :=
  let values := sRange (turnRangeStart agentId sessionId) (turnRangeEnd agentId sessionId) σ
  let turns := values.filterMap parseTurn
  (sortTurns turns, σ)

/-- `get_session_turn`: point read; `if not value: return None`; a
deserialization failure propagates. -/
def get_session_turn (agentId sessionId turnId : Str) (σ : Store) :
    Except Err (Option Turn) × Store :=
  match sGet (turnKey agentId sessionId turnId) σ with
  | none => (.ok none, σ)
  | some v =>
    if v.falsy then (.ok none, σ)
    else
      match parseTurn v with
      | some t => (.ok (some t), σ)
      | none => (.error .parseFailure, σ)

/-- `set_in_progress_tool_call_step`: unconditional overwrite at the step key. -/
def set_in_progress_tool_call_step (agentId sessionId turnId : Str)
    (step : ToolExecutionStep) (σ : Store) : Unit × Store :=
  ((), sSet (stepKey agentId sessionId turnId) (.stepVal step) σ)

/-- `get_in_progress_tool_call_step`:
`return ToolExecutionStep(**json.loads(value)) if value else None`. -/
def get_in_progress_tool_call_step (agentId sessionId turnId : Str) (σ : Store) :
    Except Err (Option ToolExecutionStep) × Store :=
  match sGet (stepKey agentId sessionId turnId) σ with
  | none => (.ok none, σ)
  | some v =>
    if v.falsy then (.ok none, σ)
    else
      match parseStep v with
      | some s => (.ok (some s), σ)
      | none => (.error .parseFailure, σ)

/-! ### Order facts about the lexicographic key space -/

theorem lt_iff (a b : Str) : a < b ↔ List.Lex (· < ·) a b := Iff.rfl

theorem le_iff (a b : Str) : a ≤ b ↔ (a = b ∨ List.Lex (· < ·) a b) := Iff.rfl

theorem lex_append_iff (p a b : Str) :
    List.Lex (· < ·) (p ++ a) (p ++ b) ↔ List.Lex (· < ·) a b := by
  induction p with
  | nil => simp
  | cons c p ih => simpa [List.cons_append, List.Lex.cons_iff] using ih

theorem append_lt_append_iff (p a b : Str) : p ++ a < p ++ b ↔ a < b :=
  lex_append_iff p a b

theorem append_le_append_iff (p a b : Str) : p ++ a ≤ p ++ b ↔ a ≤ b := by
  rw [le_iff, le_iff, lex_append_iff]
  exact or_congr_left ⟨fun h => List.append_cancel_left h, fun h => by rw [h]⟩

theorem lex_self_append (p : Str) (c : Nat) (t : Str) :
    List.Lex (· < ·) p (p ++ c :: t) := by
  induction p with
  | nil => exact List.Lex.nil
  | cons d p ih => exact List.Lex.cons ih

theorem le_self_append (p t : Str) : p ≤ p ++ t := by
  cases t with
  | nil => simp [le_iff]
  | cons c t => exact (le_iff _ _).2 (Or.inr (lex_self_append p c t))

/-- A key lying in a scan interval `[p, p ++ m)` necessarily extends `p`. -/
theorem exists_of_mem_range {p m k : Str} (h1 : p ≤ k) (h2 : k < p ++ m) :
    ∃ t, k = p ++ t := by
  induction p generalizing k with
  | nil => exact ⟨k, rfl⟩
  | cons c p ih =>
    cases k with
    | nil =>
      rcases (le_iff _ _).1 h1 with heq | hlex
      · exact absurd heq (by simp)
      · exact absurd hlex (List.Lex.not_nil_right _ _)
    | cons d k' =>
      rcases (le_iff _ _).1 h1 with heq | hlex
      · exact ⟨[], by rw [← heq, List.append_nil]⟩
      · have h2' : List.Lex (· < ·) (d :: k') (c :: (p ++ m)) := by
          simpa [List.cons_append] using (lt_iff _ _).1 h2
        cases hlex with
        | rel hcd =>
          cases h2' with
          | rel hdc => exact absurd hdc (Nat.lt_asymm hcd)
          | cons h2'' => exact absurd hcd (Nat.lt_irrefl _)
        | cons hpk' =>
          cases h2' with
          | rel hdc => exact absurd hdc (Nat.lt_irrefl _)
          | cons h2'' =>
            obtain ⟨t, ht⟩ := ih ((le_iff _ _).2 (Or.inr hpk')) ((lt_iff _ _).2 h2'')
            exact ⟨t, by rw [List.cons_append, ht]⟩

/-- Membership in the half-open scan interval `[p, p ++ m)`, characterized. -/
theorem mem_range_iff (p m k : Str) :
    (p ≤ k ∧ k < p ++ m) ↔ ∃ t, k = p ++ t ∧ t < m := by
  constructor
  · rintro ⟨h1, h2⟩
    obtain ⟨t, rfl⟩ := exists_of_mem_range h1 h2
    exact ⟨t, rfl, (append_lt_append_iff p t m).1 h2⟩
  · rintro ⟨t, rfl, ht⟩
    exact ⟨le_self_append p t, (append_lt_append_iff p t m).2 ht⟩

/-! ### Colon-delimited segments -/

/-- The string contains no `':'` (code point 58).  True of every generated
identifier (UUID4 strings use only hex digits and `'-'`). -/
def NoColon (s : Str) : Prop := ∀ c ∈ s, c ≠ 58

instance (s : Str) : Decidable (NoColon s) := List.decidableBAll _ s

/-- A colon-free segment followed by `':'` determines itself and the rest of
the string: the first colon is an unambiguous delimiter. -/
theorem seg_eq : ∀ {x y u v : Str}, NoColon x → NoColon y →
    x ++ 58 :: u = y ++ 58 :: v → x = y ∧ u = v := by
  intro x
  induction x with
  | nil =>
    intro y u v _ hy h
    cases y with
    | nil => simpa using h
    | cons d y' =>
      exfalso
      have hd : (58 : Nat) = d := by simpa using congrArg (fun l => l.headI) h
      exact hy d (by simp) hd.symm
  | cons c x' ih =>
    intro y u v hx hy h
    cases y with
    | nil =>
      exfalso
      have hc : c = 58 := by simpa using congrArg (fun l => l.headI) h
      exact hx c (by simp) hc
    | cons d y' =>
      have hcd : c = d := by simpa using congrArg (fun l => l.headI) h
      have htail : x' ++ 58 :: u = y' ++ 58 :: v := by
        simpa [List.cons_append] using congrArg List.tail h
      obtain ⟨h1, h2⟩ := ih (fun a ha => hx a (List.mem_cons_of_mem _ ha))
        (fun a ha => hy a (List.mem_cons_of_mem _ ha)) htail
      exact ⟨by rw [hcd, h1], h2⟩

/-! ### Key extension test -/

/-- `k` starts with `p` (Boolean test, used in statements about the scan). -/
def extendsB : Str → Str → Bool
  | [], _ => true
  | _ :: _, [] => false
  | a :: p, b :: k => a == b && extendsB p k

theorem extendsB_iff (p : Str) : ∀ (k : Str), extendsB p k = true ↔ ∃ t, k = p ++ t := by
  induction p with
  | nil => intro k; simp [extendsB]
  | cons a p ih =>
    intro k
    cases k with
    | nil => simp [extendsB]
    | cons b k' =>
      simp only [extendsB, Bool.and_eq_true, beq_iff_eq, ih k', List.cons_append]
      constructor
      · rintro ⟨rfl, t, rfl⟩
        exact ⟨t, rfl⟩
      · rintro ⟨t, ht⟩
        obtain ⟨h1, h2⟩ := List.cons.inj ht
        exact ⟨h1.symm, t, h2⟩

/-! ### Store lemmas -/

theorem sGet_filter_ne (k k' : Str) (h : k ≠ k') (σ : Store) :
    sGet k (σ.filter (fun kv => decide (kv.1 ≠ k'))) = sGet k σ := by
  induction σ with
  | nil => rfl
  | cons kv σ ih =>
    obtain ⟨k₀, v₀⟩ := kv
    rw [List.filter_cons]
    by_cases hk : k₀ = k'
    · subst hk
      have h1 : (decide ((k₀, v₀).1 ≠ k₀)) = false := by simp
      rw [h1]
      show sGet k (σ.filter (fun kv => decide (kv.1 ≠ k₀))) = sGet k ((k₀, v₀) :: σ)
      rw [ih, sGet, if_neg h]
    · have h1 : (decide ((k₀, v₀).1 ≠ k')) = true := by simpa using hk
      rw [h1]
      show sGet k ((k₀, v₀) :: σ.filter (fun kv => decide (kv.1 ≠ k'))) = _
      by_cases hkk : k = k₀
      · rw [sGet, if_pos hkk, sGet, if_pos hkk]
      · rw [sGet, if_neg hkk, sGet, if_neg hkk, ih]

theorem sGet_sSet (k k' : Str) (v : StoredVal) (σ : Store) :
    sGet k (sSet k' v σ) = if k = k' then some v else sGet k σ := by
  by_cases h : k = k'
  · simp [sSet, sGet, h]
  · rw [sSet, sGet, if_neg h, if_neg h, sGet_filter_ne k k' h σ]

/-! ### Key shapes -/

theorem turnKey_eq (a s t : Str) : turnKey a s t = turnRangeStart a s ++ t := by
  simp [turnKey, turnRangeStart, List.append_assoc]

theorem sessionKey_norm (a s : Str) :
    sessionKey a s = strOf "session:" ++ (a ++ 58 :: s) := by
  simp [sessionKey, List.append_assoc]

theorem turnKey_norm (a s t : Str) :
    turnKey a s t = strOf "session:" ++ (a ++ 58 :: (s ++ 58 :: t)) := by
  simp [turnKey, List.append_assoc]

theorem turnRangeStart_norm (a s : Str) :
    turnRangeStart a s = strOf "session:" ++ (a ++ 58 :: (s ++ [58])) := by
  simp [turnRangeStart, List.append_assoc]

theorem stepKey_norm (a s t : Str) :
    stepKey a s t = strOf "in_progress_tool_call_step:" ++ (a ++ 58 :: (s ++ 58 :: t)) := by
  simp [stepKey, List.append_assoc]

/-- A session-metadata key (with colon-free ids) never extends a turn-scan
start, even one built from a lexicographically related session id. -/
theorem sessionKey_not_extends (a s : Str) (ha : NoColon a)
    {a' s' : Str} (ha' : NoColon a') (hs' : NoColon s') {u : Str}
    (h : sessionKey a' s' = turnRangeStart a s ++ u) : False := by
  rw [sessionKey_norm, turnRangeStart_norm, List.append_assoc] at h
  have h' : a' ++ 58 :: s' = a ++ 58 :: (s ++ 58 :: u) := by
    have := List.append_cancel_left h
    simpa [List.append_assoc] using this
  obtain ⟨-, h2⟩ := seg_eq ha' ha h'
  exact hs' 58 (by rw [h2]; exact List.mem_append_right _ (List.mem_cons_self _ _)) rfl

/-- A turn key that extends the scan start of `(a, s)` (all ids colon-free on
the session/agent components) belongs to exactly that agent and session, and
its suffix is exactly its turn id. -/
theorem turnKey_extends_eq (a s : Str) (ha : NoColon a) (hs : NoColon s)
    {a' s' t' : Str} (ha' : NoColon a') (hs' : NoColon s') {u : Str}
    (h : turnKey a' s' t' = turnRangeStart a s ++ u) :
    a' = a ∧ s' = s ∧ t' = u := by
  rw [turnKey_norm, turnRangeStart_norm, List.append_assoc] at h
  have h' : a' ++ 58 :: (s' ++ 58 :: t') = a ++ 58 :: (s ++ 58 :: u) := by
    have := List.append_cancel_left h
    simpa [List.append_assoc] using this
  obtain ⟨h1, h2⟩ := seg_eq ha' ha h'
  obtain ⟨h3, h4⟩ := seg_eq hs' hs h2
  exact ⟨h1, h3, h4⟩

/-- An in-progress-step key never extends a turn-scan start: the key families
differ at their first character (`'i'` = 105 vs `'s'` = 115). -/
theorem stepKey_not_extends (a s a' s' t' u : Str)
    (h : stepKey a' s' t' = turnRangeStart a s ++ u) : False := by
  have h1 : (stepKey a' s' t').headI = 105 := rfl
  have h2 : (turnRangeStart a s ++ u).headI = 115 := rfl
  rw [h, h2] at h1
  exact absurd h1 (by decide)

/-! ### The scan range of `get_session_turns` -/

/-- A key as actually produced by the layer's own write operations: one of the
three key families, with colon-free agent/session ids (UUID4 strings are
colon-free) and a turn id below the `"\xff\xff\xff\xff"` sentinel (UUID4
strings start with a hex digit, far below code point 255). -/
def KeyWellFormed (k : Str) : Prop :=
  (∃ a s, NoColon a ∧ NoColon s ∧ k = sessionKey a s) ∨
  (∃ a s t, NoColon a ∧ NoColon s ∧ List.Lex (· < ·) t [255, 255, 255, 255] ∧ k = turnKey a s t) ∨
  (∃ a s t, k = stepKey a s t)

/-- For well-formed keys, membership in the scan interval of `(a, s)` is
exactly "the key extends the scan start", i.e. it is a turn key of `(a, s)`. -/
theorem range_iff_extends (a s : Str) (ha : NoColon a) (hs : NoColon s)
    {k : Str} (hk : KeyWellFormed k) :
    (turnRangeStart a s ≤ k ∧ k < turnRangeEnd a s) ↔
      extendsB (turnRangeStart a s) k = true := by
  rw [extendsB_iff]
  have hend : turnRangeEnd a s = turnRangeStart a s ++ [255, 255, 255, 255] := rfl
  constructor
  · intro h
    rw [hend] at h
    obtain ⟨t, rfl, -⟩ := (mem_range_iff (turnRangeStart a s) [255, 255, 255, 255] k).1 h
    exact ⟨t, rfl⟩
  · rintro ⟨u, rfl⟩
    rcases hk with ⟨a', s', ha', hs', hk⟩ | ⟨a', s', t', ha', hs', hlt, hk⟩ | ⟨a', s', t', hk⟩
    · exact (sessionKey_not_extends a s ha ha' hs' hk.symm).elim
    · obtain ⟨-, -, rfl⟩ := turnKey_extends_eq a s ha hs ha' hs' hk.symm
      rw [hend]
      exact (mem_range_iff _ _ _).2 ⟨t', rfl, (lt_iff _ _).2 hlt⟩
    · exact (stepKey_not_extends a s a' s' t' u hk.symm).elim

theorem range_test_eq (a s : Str) (ha : NoColon a) (hs : NoColon s)
    {k : Str} (hk : KeyWellFormed k) :
    decide (turnRangeStart a s ≤ k ∧ k < turnRangeEnd a s) =
      extendsB (turnRangeStart a s) k := by
  have h := range_iff_extends a s ha hs hk
  by_cases hc : turnRangeStart a s ≤ k ∧ k < turnRangeEnd a s
  · rw [decide_eq_true hc, (h.1 hc)]
  · rw [decide_eq_false hc]
    cases hb : extendsB (turnRangeStart a s) k with
    | false => rfl
    | true => exact absurd (h.2 hb) hc

/-- The values stored under the turn keys of `(a, s)`, in key order: what the
spec says the scan should return (before deserialization and sorting). -/
def sessionTurnValues (a s : Str) (σ : Store) : List StoredVal :=
  (List.insertionSort entryLe
    (σ.filter (fun kv => extendsB (turnRangeStart a s) kv.1))).map Prod.snd

/-- C1 (amended): for any store whose keys are the ones this layer writes
(colon-free agent/session ids, turn ids below the sentinel), the range scan of
`get_session_turns` returns exactly the values stored under that session's
turn keys — no other session's records and no other key family — and the
result is those values up to deserialization skips and sorting.  The second
conjunct identifies the selection test with "is a turn key of `(a, s)`". -/
theorem c1_theorem (agentId sessionId : Str) (σ : Store)
    (ha : NoColon agentId) (hs : NoColon sessionId)
    (hwf : ∀ kv ∈ σ, KeyWellFormed kv.1) :
    (get_session_turns agentId sessionId σ).1 =
      sortTurns ((sessionTurnValues agentId sessionId σ).filterMap parseTurn) ∧
    (∀ k : Str, extendsB (turnRangeStart agentId sessionId) k = true ↔
      ∃ t, k = turnKey agentId sessionId t) := by
  constructor
  · have hfil : σ.filter
        (fun kv => decide (turnRangeStart agentId sessionId ≤ kv.1 ∧
          kv.1 < turnRangeEnd agentId sessionId)) =
        σ.filter (fun kv => extendsB (turnRangeStart agentId sessionId) kv.1) :=
      List.filter_congr (fun kv hkv => range_test_eq agentId sessionId ha hs (hwf kv hkv))
    show sortTurns (((List.insertionSort entryLe
        (σ.filter (fun kv => decide (turnRangeStart agentId sessionId ≤ kv.1 ∧
          kv.1 < turnRangeEnd agentId sessionId)))).map Prod.snd).filterMap parseTurn) = _
    rw [hfil]
    rfl
  · intro k
    rw [extendsB_iff]
    exact exists_congr fun t => by rw [turnKey_eq]

def c1wAgent : Str := [65]

def c1wSession : Str := [97]

def c1wTurn : Turn := ⟨[116], some 3, []⟩

def c1wStore : Store :=
  [(turnKey c1wAgent c1wSession [116], .turnVal c1wTurn),
   (sessionKey c1wAgent c1wSession, .sessionVal ⟨c1wSession, [110], none, 0⟩),
   (stepKey c1wAgent c1wSession [116], .stepVal ⟨[]⟩)]

theorem c1wStore_wf : ∀ kv ∈ c1wStore, KeyWellFormed kv.1 := by
  intro kv hkv
  simp only [c1wStore, List.mem_cons, List.not_mem_nil, or_false] at hkv
  rcases hkv with rfl | rfl | rfl
  · exact Or.inr (Or.inl ⟨c1wAgent, c1wSession, [116], by decide, by decide, by decide, rfl⟩)
  · exact Or.inl ⟨c1wAgent, c1wSession, by decide, by decide, rfl⟩
  · exact Or.inr (Or.inr ⟨c1wAgent, c1wSession, [116], rfl⟩)

/-- Witness for C1's theorem at a concrete store holding one turn, the session
record and one step record. -/
theorem c1_witness :
    (NoColon c1wAgent ∧ NoColon c1wSession ∧ ∀ kv ∈ c1wStore, KeyWellFormed kv.1) ∧
    ((get_session_turns c1wAgent c1wSession c1wStore).1 =
        sortTurns ((sessionTurnValues c1wAgent c1wSession c1wStore).filterMap parseTurn) ∧
      (∀ k : Str, extendsB (turnRangeStart c1wAgent c1wSession) k = true ↔
        ∃ t, k = turnKey c1wAgent c1wSession t)) :=
  ⟨⟨by decide, by decide, c1wStore_wf⟩,
    c1_theorem c1wAgent c1wSession c1wStore (by decide) (by decide) c1wStore_wf⟩

/-- Counterexample to C1 as stated, on two concrete inputs.

First conjunct: the turn stored for session id `"abc:x"` (codes
`[97,98,99,58,120]`) — a *different* session id sharing the string prefix
`"abc"` — is returned by `get_session_turns` for session `"abc"`, because its
key `session:A:abc:x:t` falls inside the scan interval of `"abc"`.

Second conjunct: a turn of the session itself whose turn id is exactly
`"\xff\xff\xff\xff"` is stored under a turn key of the session yet missed by
the scan (its key equals the exclusive upper bound), so the scan does not
capture every turn key. -/
theorem c1_counterexample :
    ((get_session_turns [65] [97, 98, 99]
        (add_turn_to_session [65] [97, 98, 99, 58, 120] ⟨[116], some 5, []⟩ []).2).1 =
      [⟨[116], some 5, []⟩] ∧ ([97, 98, 99] : Str) ≠ [97, 98, 99, 58, 120]) ∧
    ((get_session_turns [65] [97]
        (add_turn_to_session [65] [97] ⟨[255, 255, 255, 255], some 5, []⟩ []).2).1 = []) := by
  exact ⟨⟨by decide, by decide⟩, by decide⟩

/-! ### C4: point reads -/

/-- C4 (amended): for the two point reads, an unset key yields absent without
error, and a key set to a *non-empty* value that fails to deserialize yields an
error.  (The code's `if not value` test also treats a stored empty string like
an unset key — see the counterexample.) -/
theorem c4_theorem (agentId sessionId turnId : Str) (σ : Store) :
    ((sGet (turnKey agentId sessionId turnId) σ = none →
        (get_session_turn agentId sessionId turnId σ).1 = .ok none) ∧
      (∀ v, sGet (turnKey agentId sessionId turnId) σ = some v → v.falsy = false →
        parseTurn v = none →
        (get_session_turn agentId sessionId turnId σ).1 = .error .parseFailure)) ∧
    ((sGet (stepKey agentId sessionId turnId) σ = none →
        (get_in_progress_tool_call_step agentId sessionId turnId σ).1 = .ok none) ∧
      (∀ v, sGet (stepKey agentId sessionId turnId) σ = some v → v.falsy = false →
        parseStep v = none →
        (get_in_progress_tool_call_step agentId sessionId turnId σ).1 = .error .parseFailure)) := by
  refine ⟨⟨fun h => ?_, fun v h hf hp => ?_⟩, ⟨fun h => ?_, fun v h hf hp => ?_⟩⟩
  · simp [get_session_turn, h]
  · simp [get_session_turn, h, hf, hp]
  · simp [get_in_progress_tool_call_step, h]
  · simp [get_in_progress_tool_call_step, h, hf, hp]

def c4wStore : Store :=
  [(turnKey [65] [97] [116], .rawVal [120]), (stepKey [65] [97] [116], .rawVal [120])]

/-- Witness for C4's theorem: on the empty store both point reads return
absent; on a store holding the non-empty unparseable value `"x"` under both
keys, both point reads raise. -/
theorem c4_witness :
    (get_session_turn [65] [97] [116] ([] : Store)).1 = .ok none ∧
    (get_in_progress_tool_call_step [65] [97] [116] ([] : Store)).1 = .ok none ∧
    (get_session_turn [65] [97] [116] c4wStore).1 = .error .parseFailure ∧
    (get_in_progress_tool_call_step [65] [97] [116] c4wStore).1 = .error .parseFailure :=
  ⟨(c4_theorem [65] [97] [116] []).1.1 rfl,
    (c4_theorem [65] [97] [116] []).2.1 rfl,
    (c4_theorem [65] [97] [116] c4wStore).1.2 (.rawVal [120]) (by decide) rfl rfl,
    (c4_theorem [65] [97] [116] c4wStore).2.2 (.rawVal [120]) (by decide) rfl rfl⟩

/-- Counterexample to C4 as stated: the turn key of session `"a"`, turn `"t"`
is *set* — to the empty string, which fails to deserialize (`json.loads("")`
raises) — yet `get_session_turn` returns absent instead of raising, because
Python's `if not value` treats the empty string like an unset key.  The same
happens for `get_in_progress_tool_call_step`. -/
theorem c4_counterexample :
    sGet (turnKey [65] [97] [116]) [(turnKey [65] [97] [116], .rawVal [])] =
      some (.rawVal []) ∧
    parseTurn (.rawVal []) = none ∧
    (get_session_turn [65] [97] [116] [(turnKey [65] [97] [116], .rawVal [])]).1 =
      .ok none ∧
    sGet (stepKey [65] [97] [116]) [(stepKey [65] [97] [116], .rawVal [])] =
      some (.rawVal []) ∧
    parseStep (.rawVal []) = none ∧
    (get_in_progress_tool_call_step [65] [97] [116]
        [(stepKey [65] [97] [116], .rawVal [])]).1 = .ok none := by
  refine ⟨by decide, rfl, rfl, by decide, rfl, rfl⟩

/-! ### C5: create then read back -/

/-- C5: `create_session` followed by `get_session_info` on the returned id
yields a present record with the given name, the creation timestamp, and an
absent `vector_db_id`. -/
theorem c5_theorem (agentId name sessionId : Str) (now : Time) (σ : Store) :
    (get_session_info agentId sessionId
        ((create_session agentId name sessionId now σ).2)).1 =
      .ok (some ⟨sessionId, name, none, now⟩) := by
  have h : sGet (sessionKey agentId sessionId)
      ((create_session agentId name sessionId now σ).2) =
      some (.sessionVal ⟨sessionId, name, none, now⟩) := by
    show sGet _ (sSet _ _ _) = _
    rw [sGet_sSet, if_pos rfl]
  simp [get_session_info, h, StoredVal.falsy, parseSession]

/-! ### C6: not-found on missing session -/

/-- C6: when the session-metadata key is unset, `add_vector_db_to_session`
raises the not-found error and leaves the store exactly as it was. -/
theorem c6_theorem (agentId sessionId vdb : Str) (σ : Store)
    (h : sGet (sessionKey agentId sessionId) σ = none) :
    add_vector_db_to_session agentId sessionId vdb σ =
      (.error (.notFound sessionId), σ) := by
  simp [add_vector_db_to_session, get_session_info, h]

/-- Witness for C6 at the empty store. -/
theorem c6_witness :
    sGet (sessionKey [65] [97]) ([] : Store) = none ∧
    add_vector_db_to_session [65] [97] [118] ([] : Store) =
      (.error (.notFound [97]), []) :=
  ⟨rfl, c6_theorem [65] [97] [118] [] rfl⟩

/-! ### C7: attach updates only `vector_db_id` -/

theorem add_vector_db_eq (agentId sessionId vdb : Str) (σ : Store)
    (info : AgentSessionInfo)
    (h : sGet (sessionKey agentId sessionId) σ = some (.sessionVal info)) :
    add_vector_db_to_session agentId sessionId vdb σ =
      (.ok (), sSet (sessionKey agentId sessionId)
        (.sessionVal { info with vector_db_id := some vdb }) σ) := by
  simp [add_vector_db_to_session, get_session_info, h, StoredVal.falsy, parseSession]

/-- C7: on an existing session, `add_vector_db_to_session` succeeds and rewrites
the record with only `vector_db_id` changed: `session_id`, `session_name` and
`started_at` are carried over unchanged. -/
theorem c7_theorem (agentId sessionId vdb : Str) (σ : Store)
    (info : AgentSessionInfo)
    (h : sGet (sessionKey agentId sessionId) σ = some (.sessionVal info)) :
    (add_vector_db_to_session agentId sessionId vdb σ).1 = .ok () ∧
    sGet (sessionKey agentId sessionId)
        (add_vector_db_to_session agentId sessionId vdb σ).2 =
      some (.sessionVal ⟨info.session_id, info.session_name, some vdb,
        info.started_at⟩) := by
  rw [add_vector_db_eq agentId sessionId vdb σ info h]
  exact ⟨rfl, by rw [sGet_sSet, if_pos rfl]⟩

def c7wInfo : AgentSessionInfo := ⟨[97], [110], none, 7⟩

def c7wStore : Store := [(sessionKey [65] [97], .sessionVal c7wInfo)]

/-- Witness for C7 at a concrete one-session store. -/
theorem c7_witness :
    sGet (sessionKey [65] [97]) c7wStore = some (.sessionVal c7wInfo) ∧
    (add_vector_db_to_session [65] [97] [118] c7wStore).1 = .ok () ∧
    sGet (sessionKey [65] [97]) (add_vector_db_to_session [65] [97] [118] c7wStore).2 =
      some (.sessionVal ⟨c7wInfo.session_id, c7wInfo.session_name, some [118],
        c7wInfo.started_at⟩) :=
  ⟨by decide, c7_theorem [65] [97] [118] c7wStore c7wInfo (by decide)⟩

/-! ### C8: latest step write wins -/

/-- C8: two consecutive step writes for the same `(session, turn)` leave only
the second step retrievable; the first is no longer retrievable. -/
theorem c8_theorem (agentId sessionId turnId : Str)
    (s1 s2 : ToolExecutionStep) (σ : Store) (hne : s1 ≠ s2) :
    (get_in_progress_tool_call_step agentId sessionId turnId
        (set_in_progress_tool_call_step agentId sessionId turnId s2
          (set_in_progress_tool_call_step agentId sessionId turnId s1 σ).2).2).1 =
      .ok (some s2) ∧
    (Except.ok (some s2) : Except Err (Option ToolExecutionStep)) ≠ .ok (some s1) := by
  constructor
  · have h : sGet (stepKey agentId sessionId turnId)
        (set_in_progress_tool_call_step agentId sessionId turnId s2
          (set_in_progress_tool_call_step agentId sessionId turnId s1 σ).2).2 =
        some (.stepVal s2) := by
      show sGet _ (sSet _ _ _) = _
      rw [sGet_sSet, if_pos rfl]
    simp [get_in_progress_tool_call_step, h, StoredVal.falsy, parseStep]
  · intro hc
    exact hne (Option.some.inj (Except.ok.inj hc)).symm

/-- Witness for C8 with two distinct concrete steps. -/
theorem c8_witness :
    (⟨[49]⟩ : ToolExecutionStep) ≠ ⟨[50]⟩ ∧
    ((get_in_progress_tool_call_step [65] [97] [116]
        (set_in_progress_tool_call_step [65] [97] [116] ⟨[50]⟩
          (set_in_progress_tool_call_step [65] [97] [116] ⟨[49]⟩ []).2).2).1 =
      .ok (some ⟨[50]⟩) ∧
    (Except.ok (some (⟨[50]⟩ : ToolExecutionStep)) :
        Except Err (Option ToolExecutionStep)) ≠ .ok (some ⟨[49]⟩)) :=
  ⟨by decide, c8_theorem [65] [97] [116] ⟨[49]⟩ ⟨[50]⟩ [] (by decide)⟩

/-! ### C9: reads do not write -/

/-- C9: none of the four read operations changes the store: the state component
of each result is the input store, for every input and every store. -/
theorem c9_theorem (agentId sessionId turnId : Str) (σ : Store) :
    (get_session_info agentId sessionId σ).2 = σ ∧
    (get_session_turns agentId sessionId σ).2 = σ ∧
    (get_session_turn agentId sessionId turnId σ).2 = σ ∧
    (get_in_progress_tool_call_step agentId sessionId turnId σ).2 = σ := by
  refine ⟨?_, rfl, ?_, ?_⟩
  · unfold get_session_info
    repeat' split
    all_goals rfl
  · unfold get_session_turn
    repeat' split
    all_goals rfl
  · unfold get_in_progress_tool_call_step
    repeat' split
    all_goals rfl

/-! ### C10: mutations write exactly one key -/

/-- C10: each successful mutation writes exactly the key derived from its own
arguments (readable afterwards with the written value) and leaves every other
key unchanged — for every store.  For `add_vector_db_to_session` the success
path only exists when the session record is present and parseable, so that
conjunct is conditional on it (and on nothing else). -/
theorem c10_theorem (agentId name sessionId turnId vdb : Str) (now : Time)
    (turn : Turn) (step : ToolExecutionStep) (σ : Store) :
    (sGet (sessionKey agentId sessionId)
        (create_session agentId name sessionId now σ).2 =
        some (.sessionVal ⟨sessionId, name, none, now⟩) ∧
      ∀ k, k ≠ sessionKey agentId sessionId →
        sGet k (create_session agentId name sessionId now σ).2 = sGet k σ) ∧
    (sGet (turnKey agentId sessionId turn.turn_id)
        (add_turn_to_session agentId sessionId turn σ).2 = some (.turnVal turn) ∧
      ∀ k, k ≠ turnKey agentId sessionId turn.turn_id →
        sGet k (add_turn_to_session agentId sessionId turn σ).2 = sGet k σ) ∧
    (sGet (stepKey agentId sessionId turnId)
        (set_in_progress_tool_call_step agentId sessionId turnId step σ).2 =
        some (.stepVal step) ∧
      ∀ k, k ≠ stepKey agentId sessionId turnId →
        sGet k (set_in_progress_tool_call_step agentId sessionId turnId step σ).2 =
          sGet k σ) ∧
    (∀ info : AgentSessionInfo,
      sGet (sessionKey agentId sessionId) σ = some (.sessionVal info) →
      (add_vector_db_to_session agentId sessionId vdb σ).1 = .ok () ∧
      sGet (sessionKey agentId sessionId)
        (add_vector_db_to_session agentId sessionId vdb σ).2 =
        some (.sessionVal { info with vector_db_id := some vdb }) ∧
      ∀ k, k ≠ sessionKey agentId sessionId →
        sGet k (add_vector_db_to_session agentId sessionId vdb σ).2 = sGet k σ) := by
  refine ⟨⟨?_, fun k hk => ?_⟩, ⟨?_, fun k hk => ?_⟩, ⟨?_, fun k hk => ?_⟩,
    fun info h => ⟨?_, ?_, fun k hk => ?_⟩⟩
  · show sGet _ (sSet _ _ _) = _
    rw [sGet_sSet, if_pos rfl]
  · show sGet _ (sSet _ _ _) = _
    rw [sGet_sSet, if_neg hk]
  · show sGet _ (sSet _ _ _) = _
    rw [sGet_sSet, if_pos rfl]
  · show sGet _ (sSet _ _ _) = _
    rw [sGet_sSet, if_neg hk]
  · show sGet _ (sSet _ _ _) = _
    rw [sGet_sSet, if_pos rfl]
  · show sGet _ (sSet _ _ _) = _
    rw [sGet_sSet, if_neg hk]
  · rw [add_vector_db_eq agentId sessionId vdb σ info h]
  · rw [add_vector_db_eq agentId sessionId vdb σ info h]
    show sGet _ (sSet _ _ _) = _
    rw [sGet_sSet, if_pos rfl]
  · rw [add_vector_db_eq agentId sessionId vdb σ info h]
    show sGet _ (sSet _ _ _) = _
    rw [sGet_sSet, if_neg hk]

/-- Witness for C10 at the concrete one-session store of C7; the vector-db
conjunct's present-and-parseable hypothesis is discharged there. -/
theorem c10_witness :
    sGet (sessionKey [65] [97]) c7wStore = some (.sessionVal c7wInfo) ∧
    (sGet (sessionKey [65] [97])
        (create_session [65] [110] [97] 7 c7wStore).2 =
        some (.sessionVal ⟨[97], [110], none, 7⟩) ∧
      ∀ k, k ≠ sessionKey [65] [97] →
        sGet k (create_session [65] [110] [97] 7 c7wStore).2 = sGet k c7wStore) ∧
    (sGet (turnKey [65] [97] (⟨[116], some 3, []⟩ : Turn).turn_id)
        (add_turn_to_session [65] [97] ⟨[116], some 3, []⟩ c7wStore).2 =
        some (.turnVal ⟨[116], some 3, []⟩) ∧
      ∀ k, k ≠ turnKey [65] [97] (⟨[116], some 3, []⟩ : Turn).turn_id →
        sGet k (add_turn_to_session [65] [97] ⟨[116], some 3, []⟩ c7wStore).2 =
          sGet k c7wStore) ∧
    (sGet (stepKey [65] [97] [116])
        (set_in_progress_tool_call_step [65] [97] [116] ⟨[115]⟩ c7wStore).2 =
        some (.stepVal ⟨[115]⟩) ∧
      ∀ k, k ≠ stepKey [65] [97] [116] →
        sGet k (set_in_progress_tool_call_step [65] [97] [116] ⟨[115]⟩ c7wStore).2 =
          sGet k c7wStore) ∧
    ((add_vector_db_to_session [65] [97] [118] c7wStore).1 = .ok () ∧
      sGet (sessionKey [65] [97])
        (add_vector_db_to_session [65] [97] [118] c7wStore).2 =
        some (.sessionVal { c7wInfo with vector_db_id := some [118] }) ∧
      ∀ k, k ≠ sessionKey [65] [97] →
        sGet k (add_vector_db_to_session [65] [97] [118] c7wStore).2 =
          sGet k c7wStore) := by
  have h := c10_theorem [65] [110] [97] [116] [118] 7 ⟨[116], some 3, []⟩ ⟨[115]⟩ c7wStore
  exact ⟨by decide, h.1, h.2.1, h.2.2.1, h.2.2.2 c7wInfo (by decide)⟩

/-! ### C3: per-record skip on bulk deserialization failure -/

theorem length_filterMap_lt_of_none {α β : Type} {f : α → Option β} :
    ∀ {l : List α}, (∃ v ∈ l, f v = none) → (l.filterMap f).length < l.length := by
  intro l
  induction l with
  | nil => rintro ⟨v, hv, -⟩; exact absurd hv (List.not_mem_nil v)
  | cons a l ih =>
    rintro ⟨v, hv, hfv⟩
    cases hfa : f a with
    | none =>
      rw [List.filterMap_cons_none hfa, List.length_cons]
      exact Nat.lt_succ_of_le (List.length_filterMap_le f l)
    | some b =>
      rw [List.filterMap_cons_some hfa, List.length_cons, List.length_cons]
      rcases List.mem_cons.1 hv with rfl | hv'
      · exact absurd hfa (by rw [hfv]; simp)
      · exact Nat.succ_lt_succ (ih ⟨v, hv', hfv⟩)

/-- The values returned by the turn scan of `get_session_turns`. -/
def scanValues (agentId sessionId : Str) (σ : Store) : List StoredVal :=
  sRange (turnRangeStart agentId sessionId) (turnRangeEnd agentId sessionId) σ

/-- C3: when the scan yields at least one value that fails to deserialize,
`get_session_turns` still completes (it is a total function into a plain turn
list — the per-record failure is swallowed), its result consists of exactly the
successfully-parsed turns (as a permutation, i.e. failing records are
excluded), every successfully-parsed value is still returned, and the result is
strictly shorter than the scan (the failing record really is dropped). -/
theorem c3_theorem (agentId sessionId : Str) (σ : Store)
    (hbad : ∃ v ∈ scanValues agentId sessionId σ, parseTurn v = none) :
    List.Perm (get_session_turns agentId sessionId σ).1
      ((scanValues agentId sessionId σ).filterMap parseTurn) ∧
    (∀ v ∈ scanValues agentId sessionId σ, ∀ t, parseTurn v = some t →
      t ∈ (get_session_turns agentId sessionId σ).1) ∧
    (get_session_turns agentId sessionId σ).1.length <
      (scanValues agentId sessionId σ).length := by
  have hres : (get_session_turns agentId sessionId σ).1 =
      sortTurns ((scanValues agentId sessionId σ).filterMap parseTurn) := rfl
  refine ⟨?_, ?_, ?_⟩
  · rw [hres]
    exact List.perm_insertionSort turnLe _
  · intro v hv t ht
    rw [hres]
    exact (List.mem_insertionSort turnLe).2 (List.mem_filterMap.2 ⟨v, hv, ht⟩)
  · rw [hres]
    show (List.insertionSort turnLe _).length < _
    rw [List.length_insertionSort]
    exact length_filterMap_lt_of_none hbad

def c3wStore : Store :=
  [(turnKey [65] [97] [97], .rawVal [120]),
   (turnKey [65] [97] [98], .turnVal ⟨[98], some 4, []⟩)]

/-- Witness for C3: a store holding one corrupt record and one good turn under
turn keys of the same session. -/
theorem c3_witness :
    (∃ v ∈ scanValues [65] [97] c3wStore, parseTurn v = none) ∧
    (List.Perm (get_session_turns [65] [97] c3wStore).1
        ((scanValues [65] [97] c3wStore).filterMap parseTurn) ∧
      (∀ v ∈ scanValues [65] [97] c3wStore, ∀ t, parseTurn v = some t →
        t ∈ (get_session_turns [65] [97] c3wStore).1) ∧
      (get_session_turns [65] [97] c3wStore).1.length <
        (scanValues [65] [97] c3wStore).length) :=
  ⟨by decide, c3_theorem [65] [97] c3wStore (by decide)⟩

/-! ### C2: turn ordering -/

/-- Two sorted lists that are permutations of each other are equal when the
first has no distinct tied pair (the relation is antisymmetric on it). -/
theorem sorted_perm_eq {α : Type} {r : α → α → Prop} :
    ∀ {l₁ l₂ : List α}, List.Perm l₁ l₂ → l₁.Sorted r → l₂.Sorted r →
      l₁.Pairwise (fun a b => ¬(r a b ∧ r b a)) → l₁ = l₂ := by
  intro l₁
  induction l₁ with
  | nil =>
    intro l₂ hp _ _ _
    exact (List.Perm.nil_eq hp)
  | cons a t₁ ih =>
    intro l₂ hp hs₁ hs₂ hq
    cases l₂ with
    | nil =>
      have := hp.length_eq
      simp at this
    | cons b t₂ =>
      by_cases hab : a = b
      · subst hab
        rw [ih hp.cons_inv hs₁.of_cons hs₂.of_cons (List.pairwise_cons.1 hq).2]
      · exfalso
        have hbmem : b ∈ a :: t₁ := hp.symm.subset (List.mem_cons_self b t₂)
        have hamem : a ∈ b :: t₂ := hp.subset (List.mem_cons_self a t₁)
        have hb₁ : b ∈ t₁ := by
          rcases List.mem_cons.1 hbmem with h | h
          · exact absurd h.symm hab
          · exact h
        have ha₂ : a ∈ t₂ := by
          rcases List.mem_cons.1 hamem with h | h
          · exact absurd h hab
          · exact h
        exact (List.pairwise_cons.1 hq).1 b hb₁
          ⟨List.rel_of_sorted_cons hs₁ b hb₁, List.rel_of_sorted_cons hs₂ a ha₂⟩

/-- The store entry written by `add_turn_to_session` for a turn. -/
def turnEntry (agentId sessionId : Str) (t : Turn) : Str × StoredVal :=
  (turnKey agentId sessionId t.turn_id, .turnVal t)

theorem turnKey_inj {a s x y : Str} (h : turnKey a s x = turnKey a s y) : x = y := by
  rw [turnKey_eq, turnKey_eq] at h
  exact List.append_cancel_left h

/-- The store obtained by adding a sequence of turns to a session, starting
from the empty store (`add_turn_to_session` folded over the sequence). -/
def buildTurns (agentId sessionId : Str) (ts : List Turn) : Store :=
  ts.foldl (fun σ t => (add_turn_to_session agentId sessionId t σ).2) []

theorem buildFrom_eq (a s : Str) :
    ∀ (ts : List Turn) (σ₀ : Store),
      ts.Pairwise (fun t u => t.turn_id ≠ u.turn_id) →
      (∀ t ∈ ts, ∀ kv ∈ σ₀, kv.1 ≠ turnKey a s t.turn_id) →
      ts.foldl (fun σ t => (add_turn_to_session a s t σ).2) σ₀ =
        (ts.map (turnEntry a s)).reverse ++ σ₀ := by
  intro ts
  induction ts with
  | nil => intro σ₀ _ _; simp
  | cons t ts ih =>
    intro σ₀ hpw hfresh
    rw [List.foldl_cons]
    have hstep : (add_turn_to_session a s t σ₀).2 = turnEntry a s t :: σ₀ := by
      show sSet _ _ _ = _
      rw [sSet, List.filter_eq_self.mpr (fun kv hkv =>
        decide_eq_true (hfresh t (List.mem_cons_self t ts) kv hkv))]
      rfl
    rw [hstep]
    have hfresh' : ∀ u ∈ ts, ∀ kv ∈ turnEntry a s t :: σ₀,
        kv.1 ≠ turnKey a s u.turn_id := by
      intro u hu kv hkv
      rcases List.mem_cons.1 hkv with rfl | hkv'
      · intro hcontra
        exact (List.pairwise_cons.1 hpw).1 u hu (turnKey_inj hcontra)
      · exact hfresh u (List.mem_cons_of_mem _ hu) kv hkv'
    rw [ih (turnEntry a s t :: σ₀) (List.pairwise_cons.1 hpw).2 hfresh']
    simp [List.append_assoc]

theorem buildTurns_eq (a s : Str) (ts : List Turn)
    (hpw : ts.Pairwise (fun t u => t.turn_id ≠ u.turn_id)) :
    buildTurns a s ts = (ts.map (turnEntry a s)).reverse := by
  have h := buildFrom_eq a s ts [] hpw
    (fun t _ kv hkv => absurd hkv (List.not_mem_nil kv))
  simpa [buildTurns] using h

/-- Turn-id order: the order in which the backend's key-ordered scan yields
the turns of one session (the turn id is the variable part of the key). -/
def tidLe (x y : Turn) : Prop := x.turn_id ≤ y.turn_id

instance : DecidableRel tidLe := fun x y => (inferInstance : Decidable (x.turn_id ≤ y.turn_id))

instance : IsTotal Turn tidLe := ⟨fun x y => le_total x.turn_id y.turn_id⟩

instance : IsTrans Turn tidLe := ⟨fun _ _ _ h h' => le_trans h h'⟩

/-- The scan order of a session's turns: ascending turn id. -/
def scanOrder (ts : List Turn) : List Turn := List.insertionSort tidLe ts

/-- The scan of a store built by adding `ts` (distinct turn ids, ids below the
sentinel) returns exactly the serialized turns of `ts` in scan order. -/
theorem scan_buildTurns (a s : Str) (ts : List Turn)
    (hpw : ts.Pairwise (fun t u => t.turn_id ≠ u.turn_id))
    (hcap : ∀ t ∈ ts, List.Lex (· < ·) t.turn_id [255, 255, 255, 255]) :
    scanValues a s (buildTurns a s ts) =
      (scanOrder ts).map (fun t => StoredVal.turnVal t) := by
  rw [buildTurns_eq a s ts hpw]
  show (List.insertionSort entryLe
      (((ts.map (turnEntry a s)).reverse).filter
        (fun kv => decide (turnRangeStart a s ≤ kv.1 ∧ kv.1 < turnRangeEnd a s)))).map
      Prod.snd = _
  have hfil : ((ts.map (turnEntry a s)).reverse).filter
      (fun kv => decide (turnRangeStart a s ≤ kv.1 ∧ kv.1 < turnRangeEnd a s)) =
      (ts.map (turnEntry a s)).reverse := by
    apply List.filter_eq_self.mpr
    intro kv hkv
    rw [List.mem_reverse] at hkv
    obtain ⟨t, ht, rfl⟩ := List.mem_map.1 hkv
    apply decide_eq_true
    show turnRangeStart a s ≤ turnKey a s t.turn_id ∧
      turnKey a s t.turn_id < turnRangeEnd a s
    rw [turnKey_eq, show turnRangeEnd a s =
      turnRangeStart a s ++ [255, 255, 255, 255] from rfl]
    exact (mem_range_iff _ _ _).2 ⟨t.turn_id, rfl, (lt_iff _ _).2 (hcap t ht)⟩
  rw [hfil, show (ts.map (turnEntry a s)).reverse = ts.reverse.map (turnEntry a s) by
    rw [List.map_reverse]]
  have hcomp : ∀ x ∈ ts.reverse, ∀ y ∈ ts.reverse,
      tidLe x y ↔ entryLe (turnEntry a s x) (turnEntry a s y) := by
    intro x _ y _
    show x.turn_id ≤ y.turn_id ↔ turnKey a s x.turn_id ≤ turnKey a s y.turn_id
    rw [turnKey_eq, turnKey_eq, append_le_append_iff]
  rw [← List.map_insertionSort tidLe entryLe (turnEntry a s) ts.reverse hcomp]
  have hq : ts.Pairwise (fun x y => ¬(tidLe x y ∧ tidLe y x)) :=
    hpw.imp (fun hne hc => hne (le_antisymm hc.1 hc.2))
  have hperm : List.Perm (List.insertionSort tidLe ts.reverse) ts :=
    (List.perm_insertionSort tidLe ts.reverse).trans (List.reverse_perm ts)
  have hsieq : List.insertionSort tidLe ts.reverse = scanOrder ts := by
    apply sorted_perm_eq
      (hperm.trans (List.perm_insertionSort tidLe ts).symm)
      (List.sorted_insertionSort tidLe ts.reverse)
      (List.sorted_insertionSort tidLe ts)
    exact (hperm.pairwise_iff (fun h hc => h ⟨hc.2, hc.1⟩)).2 hq
  rw [hsieq, List.map_map]
  rfl

/-- Stability of the embedded sort for a class of turns that compares below
everything: such turns keep their relative scan order. -/
theorem insertionSort_filter_bottom {p : Turn → Bool}
    (hp : ∀ x y, p x = true → turnLe x y) (l : List Turn) :
    (List.insertionSort turnLe l).filter p = l.filter p := by
  have hpw : (l.filter p).Pairwise turnLe :=
    List.pairwise_of_forall_mem_list
      (fun a ha b _ => hp a b (List.of_mem_filter ha))
  have hsub : List.Sublist (l.filter p) (List.insertionSort turnLe l) :=
    List.sublist_insertionSort hpw (List.filter_sublist l)
  have hsub2 := hsub.filter p
  rw [List.filter_eq_self.mpr (fun a ha => List.of_mem_filter ha)] at hsub2
  have hlen : ((List.insertionSort turnLe l).filter p).length = (l.filter p).length :=
    ((List.perm_insertionSort turnLe l).filter p).length_eq
  exact (List.Sublist.eq_of_length hsub2 hlen.symm).symm

/-- C2 (amended): adding turns with pairwise-distinct turn ids (the data-model
invariant), turn ids below the scan sentinel, pairwise-distinct present
`completed_at` values *none of which is the minimum representable timestamp*
(`datetime.min`, embedded as `0`), `get_session_turns` returns exactly those
turns (permutation), sorted ascending by the sort key, with every
absent-`completed_at` turn before every timestamped turn, and with tied
(absent) turns kept in scan order. -/
theorem c2_theorem (agentId sessionId : Str) (ts : List Turn)
    (hids : ts.Pairwise (fun t u => t.turn_id ≠ u.turn_id))
    (hcap : ∀ t ∈ ts, List.Lex (· < ·) t.turn_id [255, 255, 255, 255])
    (hdis : ts.Pairwise (fun t u => t.completed_at ≠ none → u.completed_at ≠ none →
      t.completed_at ≠ u.completed_at))
    (hmin : ∀ t ∈ ts, t.completed_at ≠ some 0) :
    List.Perm (get_session_turns agentId sessionId (buildTurns agentId sessionId ts)).1 ts ∧
    (get_session_turns agentId sessionId (buildTurns agentId sessionId ts)).1.Sorted turnLe ∧
    (get_session_turns agentId sessionId (buildTurns agentId sessionId ts)).1.Pairwise
      (fun x y => y.completed_at = none → x.completed_at = none) ∧
    (get_session_turns agentId sessionId (buildTurns agentId sessionId ts)).1.filter
        (fun t => t.completed_at.isNone) =
      (scanOrder ts).filter (fun t => t.completed_at.isNone) := by
  have hparsed : (scanValues agentId sessionId
      (buildTurns agentId sessionId ts)).filterMap parseTurn = scanOrder ts := by
    rw [scan_buildTurns agentId sessionId ts hids hcap, List.filterMap_map]
    rw [show (parseTurn ∘ fun t => StoredVal.turnVal t) = some from funext (fun t => rfl)]
    exact List.filterMap_some _
  have hres : (get_session_turns agentId sessionId (buildTurns agentId sessionId ts)).1 =
      List.insertionSort turnLe (scanOrder ts) := by
    show sortTurns ((scanValues agentId sessionId
      (buildTurns agentId sessionId ts)).filterMap parseTurn) = _
    rw [hparsed]
    rfl
  refine ⟨?_, ?_, ?_, ?_⟩
  · rw [hres]
    exact (List.perm_insertionSort turnLe _).trans (List.perm_insertionSort tidLe ts)
  · rw [hres]
    exact List.sorted_insertionSort turnLe _
  · rw [hres]
    have hsorted : (List.insertionSort turnLe (scanOrder ts)).Pairwise turnLe :=
      List.sorted_insertionSort turnLe (scanOrder ts)
    refine hsorted.imp_of_mem ?_
    intro x y hx hy hxy hynone
    have hxts : x ∈ ts := (List.mem_insertionSort tidLe).1
      ((List.mem_insertionSort turnLe).1 hx)
    have hky : sortKey y = 0 := by simp [sortKey, hynone]
    have hkx : sortKey x = 0 := Nat.le_antisymm (hky ▸ hxy) (Nat.zero_le _)
    cases hcx : x.completed_at with
    | none => rfl
    | some c =>
      exfalso
      apply hmin x hxts
      rw [hcx]
      rw [sortKey, hcx, Option.getD_some] at hkx
      rw [hkx]
  · rw [hres]
    refine insertionSort_filter_bottom (fun x y hpx => ?_) (scanOrder ts)
    show sortKey x ≤ sortKey y
    have hx : x.completed_at = none := by
      simpa [Option.isNone_iff_eq_none] using hpx
    simp [sortKey, hx]

def c2wTs : List Turn := [⟨[98], some 5, []⟩, ⟨[97], none, []⟩]

/-- Witness for C2's theorem: one timestamped and one absent-timestamp turn. -/
theorem c2_witness :
    (c2wTs.Pairwise (fun t u => t.turn_id ≠ u.turn_id) ∧
      (∀ t ∈ c2wTs, List.Lex (· < ·) t.turn_id [255, 255, 255, 255]) ∧
      c2wTs.Pairwise (fun t u => t.completed_at ≠ none → u.completed_at ≠ none →
        t.completed_at ≠ u.completed_at) ∧
      (∀ t ∈ c2wTs, t.completed_at ≠ some 0)) ∧
    (List.Perm (get_session_turns [65] [97] (buildTurns [65] [97] c2wTs)).1 c2wTs ∧
      (get_session_turns [65] [97] (buildTurns [65] [97] c2wTs)).1.Sorted turnLe ∧
      (get_session_turns [65] [97] (buildTurns [65] [97] c2wTs)).1.Pairwise
        (fun x y => y.completed_at = none → x.completed_at = none) ∧
      (get_session_turns [65] [97] (buildTurns [65] [97] c2wTs)).1.filter
          (fun t => t.completed_at.isNone) =
        (scanOrder c2wTs).filter (fun t => t.completed_at.isNone)) :=
  ⟨⟨by decide, by decide, by decide, by decide⟩,
    c2_theorem [65] [97] c2wTs (by decide) (by decide) (by decide) (by decide)⟩

/-- Counterexample to C2 as stated: turn `"a"` has `completed_at =
datetime.min` (embedded as `some 0`) and turn `"b"` has no `completed_at` —
two pairwise-distinct `completed_at` values, as the claim requires.  The sort
key of both is `datetime.min`, so the stable sort keeps the scan order and the
timestamped turn `"a"` comes out *before* the absent-timestamp turn `"b"`,
while the claim demands every absent turn before every timestamped one. -/
theorem c2_counterexample :
    (get_session_turns [65] [97]
        (buildTurns [65] [97] [⟨[97], some 0, []⟩, ⟨[98], none, []⟩])).1 =
      [⟨[97], some 0, []⟩, ⟨[98], none, []⟩] ∧
    (⟨[97], some 0, []⟩ : Turn).completed_at ≠ none ∧
    (⟨[98], none, []⟩ : Turn).completed_at = none := by
  exact ⟨by decide, by decide, rfl⟩

end AgentPersist
